import Mathlib

/-!
Verification of the growable-array implementation in
`src/appendable_arrays.c` (struct `Array` with `newArray`, `get`, `set`,
`append`, `popBack`, `popFront`).

The C code is shallowly embedded: the heap block `a->data` (of
`a->capacity` allocated `int` slots) becomes a `List Int` whose length is
the number of allocated slots; the C `int` fields `capacity` and `length`
become `Int`.  A memory access outside the allocated block is undefined
behaviour in C; here it is made explicit as the error value `Err.UB`.
A failing `assert` aborts the process; it is modelled as `Err.OutOfRange`
(this is the only assert message in the file, a range error).  Functions
that can abort or hit undefined behaviour return `Except Err _`;
`popBack` and `popFront` contain no assert and no memory access, so they
stay total functions.
-/

namespace AppendableArrays

/-- Errors an operation of the C code can hit: a failing range `assert`
(which aborts the process), or undefined behaviour from an access outside
the allocated block. -/
inductive Err where
  | OutOfRange : Err
  | UB : Err
deriving DecidableEq, Repr

/-- `struct Array { int* data; int capacity; int length; }`.
`data` is the allocated block: its list length is the number of allocated
slots. -/
structure Array where
  data : List Int
  capacity : Int
  length : Int
deriving DecidableEq, Repr

/-- Read `block[idx]` in C: defined only for `0 <= idx < `number of
allocated slots; anything else is an out-of-bounds access. -/
def readMem (block : List Int) (idx : Int) : Option Int :=
  if 0 ≤ idx then block[idx.toNat]? else none

/-- Write `block[idx] = v` in C: defined only for `0 <= idx < ` number of
allocated slots; anything else is an out-of-bounds access. -/
def writeMem (block : List Int) (idx : Int) (v : Int) : Option (List Int) :=
  if 0 ≤ idx ∧ idx.toNat < block.length then some (block.set idx.toNat v)
  else none

/-- `newArray` (lines 32-40): allocate `capacity` slots (uninitialized in
C, modelled as zeros; no verified property may depend on them, see the
read-frame theorem), `length = 0`. -/
def newArray (capacity : Int) : Array :=
  { data := List.replicate capacity.toNat 0
    capacity := capacity
    length := 0 }

/-- `get` (lines 57-61): `assert(idx < a->length)`, `assert(idx >= 0)`,
then `return a->data[idx]`. -/
def get (a : Array) (idx : Int) : Except Err Int :=
  if ¬ idx < a.length then .error .OutOfRange
  else if ¬ 0 ≤ idx then .error .OutOfRange
  else match readMem a.data idx with
    | some v => .ok v
    | none => .error .UB

/-- `set` (lines 50-54): `assert(idx < a->length)`, `assert(idx >= 0)`,
then `a->data[idx] = value`. -/
def set (a : Array) (idx value : Int) : Except Err Array :=
  if ¬ idx < a.length then .error .OutOfRange
  else if ¬ 0 ≤ idx then .error .OutOfRange
  else match writeMem a.data idx value with
    | some d => .ok { a with data := d }
    | none => .error .UB

/-- The reallocation step inside `append` (lines 77-82):
`newData = malloc(sizeof(int) * a->capacity * 2)`,
`memcpy(newData, a->data, sizeof(int) * a->length)`, `free(a->data)`,
`a->data = newData`, `a->capacity *= 2`.  The fresh slots beyond the
copied prefix are uninitialized (modelled as zeros). -/
def grow (a : Array) : Array :=
  { a with
    data := a.data.take a.length.toNat ++
      List.replicate ((a.capacity * 2).toNat - a.length.toNat) 0
    capacity := a.capacity * 2 }

/-- The unconditional tail of `append` (lines 85-86):
`a->data[a->length] = value; a->length++;`. -/
def pushRaw (a : Array) (value : Int) : Except Err Array :=
  match writeMem a.data a.length value with
  | some d => .ok { a with data := d, length := a.length + 1 }
  | none => .error .UB

/-- `append` (lines 74-87): if `a->length == a->capacity`, reallocate via
`grow` (the `memcpy` reads `a->length` elements from the old block, which
is undefined behaviour unless `0 <= a->length <= ` allocated slots), then
in either case write at index `length` and bump `length`. -/
def append (a : Array) (value : Int) : Except Err Array :=
  if a.length = a.capacity then
    if 0 ≤ a.length ∧ a.length.toNat ≤ a.data.length then pushRaw (grow a) value
    else .error .UB
  else pushRaw a value

/-- `popBack` (lines 102-105): `a->length--;` and nothing else — no
check, no shrink. -/
def popBack (a : Array) : Array :=
  { a with length := a.length - 1 }

/-- `popFront` (lines 115-120): the body is entirely commented out, so
the function does nothing. -/
def popFront (a : Array) : Array :=
  a

/-- Sequential appends of a list of values, left to right, stopping at
the first error. -/
def appendAll (a : Array) : List Int → Except Err Array
  | [] => .ok a
  | v :: vs =>
    match append a v with
    | .ok a' => appendAll a' vs
    | .error e => .error e

/-- The logical contents: the first `length` slots of the block. -/
def elems (a : Array) : List Int :=
  a.data.take a.length.toNat

/-- Well-formedness of an `Array` struct: the bookkeeping fields describe
the block (`0 <= length <= capacity` and the block really has `capacity`
slots).  `newArray c` establishes it for `c >= 0` and every successful
operation preserves it. -/
def Wf (a : Array) : Prop :=
  0 ≤ a.length ∧ a.length ≤ a.capacity ∧ a.data.length = a.capacity.toNat

/-- The states reachable through the public interface, starting from
`newArray c` with a non-negative requested capacity: `set`, `append`
(when they do not abort), `popBack` and `popFront` applied in any
sequence (`get` does not change the state). -/
inductive Reachable : Array → Prop where
  | create (c : Int) (hc : 0 ≤ c) : Reachable (newArray c)
  | set (a a' : Array) (idx v : Int) (ha : Reachable a)
      (h : set a idx v = .ok a') : Reachable a'
  | append (a a' : Array) (v : Int) (ha : Reachable a)
      (h : append a v = .ok a') : Reachable a'
  | popBack (a : Array) (ha : Reachable a) : Reachable (popBack a)
  | popFront (a : Array) (ha : Reachable a) : Reachable (popFront a)


theorem take_set_succ (l : List Int) (n : Nat) (v : Int) (h : n < l.length) :
    (l.set n v).take (n + 1) = l.take n ++ [v] := by
  induction l generalizing n with
  | nil => simp at h
  | cons a as ih =>
    cases n with
    | zero => simp
    | succ m =>
      simp only [List.set, List.take, List.cons_append, List.cons.injEq, true_and]
      exact ih m (by simpa using h)

theorem writeMem_eq_some {block d : List Int} {idx v : Int} :
    writeMem block idx v = some d ↔
      (0 ≤ idx ∧ idx.toNat < block.length) ∧ d = block.set idx.toNat v := by
  unfold writeMem
  split
  · rename_i hc
    simp [hc, eq_comm]
  · simp_all

theorem pushRaw_ok {a a' : Array} {v : Int} :
    pushRaw a v = .ok a' ↔
      (0 ≤ a.length ∧ a.length.toNat < a.data.length) ∧
      a' = { a with data := a.data.set a.length.toNat v, length := a.length + 1 } := by
  unfold pushRaw
  cases hw : writeMem a.data a.length v with
  | none =>
    simp only [reduceCtorEq, false_iff]
    intro hcon
    rw [writeMem, if_pos hcon.1] at hw
    exact Option.noConfusion hw
  | some d =>
    obtain ⟨hrange, hd⟩ := writeMem_eq_some.mp hw
    subst hd
    simp [hrange, eq_comm]

theorem set_ok_iff {a a' : Array} {idx v : Int} :
    set a idx v = .ok a' ↔
      (0 ≤ idx ∧ idx < a.length ∧ idx.toNat < a.data.length) ∧
      a' = { a with data := a.data.set idx.toNat v } := by
  unfold set
  by_cases h1 : idx < a.length
  · by_cases h2 : 0 ≤ idx
    · simp only [h1, not_true_eq_false, if_false, h2]
      cases hw : writeMem a.data idx v with
      | none =>
        simp only [reduceCtorEq, false_iff]
        intro hcon
        rw [writeMem, if_pos ⟨h2, hcon.1.2.2⟩] at hw
        exact Option.noConfusion hw
      | some d =>
        obtain ⟨hrange, hd⟩ := writeMem_eq_some.mp hw
        subst hd
        simp [h1, h2, hrange, eq_comm]
    · simp [h1, h2]
  · simp [h1]

theorem append_of_full {a : Array} (v : Int) (h : a.length = a.capacity)
    (h0 : 0 ≤ a.length) (hm : a.length.toNat ≤ a.data.length) :
    append a v = pushRaw (grow a) v := by
  unfold append
  rw [if_pos h, if_pos ⟨h0, hm⟩]

theorem append_of_not_full {a : Array} (v : Int) (h : ¬ a.length = a.capacity) :
    append a v = pushRaw a v := by
  simp [append, h]

theorem grow_data_length {a : Array} (h0 : 0 ≤ a.length)
    (hm : a.length.toNat ≤ a.data.length) (hc : a.length = a.capacity) :
    (grow a).data.length = (a.capacity * 2).toNat := by
  simp only [grow, List.length_append, List.length_take, List.length_replicate]
  omega

theorem append_ok_inv {a a' : Array} {v : Int} (h : append a v = .ok a')
    (hcap : 0 ≤ a.capacity) (hdata : a.data.length = a.capacity.toNat)
    (hlen : a.length ≤ a.capacity) :
    0 ≤ a'.capacity ∧ a'.data.length = a'.capacity.toNat ∧ a'.length ≤ a'.capacity := by
  by_cases hfull : a.length = a.capacity
  · by_cases hguard : 0 ≤ a.length ∧ a.length.toNat ≤ a.data.length
    · rw [append_of_full v hfull hguard.1 hguard.2] at h
      obtain ⟨⟨hg0, hglt⟩, ha'⟩ := pushRaw_ok.mp h
      have hgd : (grow a).data.length = (a.capacity * 2).toNat :=
        grow_data_length hguard.1 hguard.2 hfull
      subst ha'
      simp only [grow] at hglt ⊢
      simp only [List.length_set, List.length_append, List.length_take,
        List.length_replicate] at hglt ⊢
      constructor
      · omega
      · constructor
        · omega
        · omega
    · unfold append at h
      rw [if_pos hfull, if_neg hguard] at h
      exact absurd h (by simp)
  · rw [append_of_not_full v hfull] at h
    obtain ⟨⟨hg0, hglt⟩, ha'⟩ := pushRaw_ok.mp h
    subst ha'
    simp only [List.length_set]
    omega

theorem reachable_inv {a : Array} (h : Reachable a) :
    0 ≤ a.capacity ∧ a.data.length = a.capacity.toNat ∧ a.length ≤ a.capacity := by
  induction h with
  | create c hc =>
    refine ⟨hc, by simp [newArray], by simp [newArray, hc]⟩
  | set a a' idx v ha hset ih =>
    obtain ⟨⟨h0, h1, h2⟩, ha'⟩ := set_ok_iff.mp hset
    subst ha'
    simpa using ih
  | append a a' v ha happ ih =>
    exact append_ok_inv happ ih.1 ih.2.1 ih.2.2
  | popBack a ha ih =>
    refine ⟨ih.1, ih.2.1, by simp [popBack]; omega⟩
  | popFront a ha ih =>
    exact ih


theorem wf_newArray {c : Int} (hc : 0 ≤ c) : Wf (newArray c) := by
  refine ⟨le_refl 0, hc, by simp [newArray]⟩

theorem elems_newArray (c : Int) : elems (newArray c) = [] := by
  simp [elems, newArray]

theorem append_spec {a : Array} (v : Int) (hw : Wf a) (hc : 1 ≤ a.capacity) :
    ∃ a', append a v = .ok a' ∧ Wf a' ∧ 1 ≤ a'.capacity ∧
      a'.length = a.length + 1 ∧
      a'.capacity = (if a.length = a.capacity then a.capacity * 2 else a.capacity) ∧
      elems a' = elems a ++ [v] := by
  obtain ⟨h0, hlc, hdl⟩ := hw
  by_cases hfull : a.length = a.capacity
  · have hm : a.length.toNat ≤ a.data.length := by omega
    have hidx : a.length.toNat < (grow a).data.length := by
      rw [grow_data_length h0 hm hfull]
      omega
    have htake : a.data.take a.length.toNat = a.data := by
      apply List.take_of_length_le
      omega
    refine ⟨{ grow a with data := (grow a).data.set (grow a).length.toNat v,
                          length := (grow a).length + 1 },
      ?_, ?_, ?_, ?_, ?_, ?_⟩
    · rw [append_of_full v hfull h0 hm]
      exact pushRaw_ok.mpr ⟨⟨h0, hidx⟩, rfl⟩
    · refine ⟨by simp [grow]; omega, by simp [grow]; omega, ?_⟩
      simp only [grow, List.length_set, List.length_append, List.length_take,
        List.length_replicate]
      omega
    · simp [grow]; omega
    · simp [grow]
    · simp [grow, hfull]
    · simp only [elems, grow]
      have hn : (a.length + 1).toNat = a.length.toNat + 1 := by omega
      rw [hn, htake]
      have hidx2 : a.length.toNat <
          (a.data ++ List.replicate ((a.capacity * 2).toNat - a.length.toNat) 0).length := by
        simp only [List.length_append, List.length_replicate]
        omega
      rw [take_set_succ _ _ _ hidx2]
      have hsplit : (a.data ++ List.replicate ((a.capacity * 2).toNat - a.length.toNat) 0).take
          a.length.toNat = a.data := by
        rw [List.take_append_eq_append_take]
        have hz : a.length.toNat - a.data.length = 0 := by omega
        rw [hz, htake]
        simp
      rw [hsplit]
  · have hidx : a.length.toNat < a.data.length := by omega
    refine ⟨{ a with data := a.data.set a.length.toNat v, length := a.length + 1 },
      ?_, ?_, ?_, ?_, ?_, ?_⟩
    · rw [append_of_not_full v hfull]
      exact pushRaw_ok.mpr ⟨⟨h0, hidx⟩, rfl⟩
    · refine ⟨by simp; omega, by simp; omega, by simp [hdl]⟩
    · simpa using hc
    · simp
    · simp [hfull]
    · simp only [elems, List.length_set]
      have hn : (a.length + 1).toNat = a.length.toNat + 1 := by omega
      rw [hn, take_set_succ _ _ _ hidx]

theorem appendAll_spec {a : Array} (vs : List Int) (hw : Wf a) (hc : 1 ≤ a.capacity) :
    ∃ a', appendAll a vs = .ok a' ∧ Wf a' ∧ 1 ≤ a'.capacity ∧
      a'.length = a.length + vs.length ∧ elems a' = elems a ++ vs := by
  induction vs generalizing a with
  | nil => exact ⟨a, rfl, hw, hc, by simp, by simp⟩
  | cons v vs ih =>
    obtain ⟨a1, h1, hw1, hc1, hl1, hcap1, he1⟩ := append_spec v hw hc
    obtain ⟨a2, h2, hw2, hc2, hl2, he2⟩ := ih hw1 hc1
    refine ⟨a2, ?_, hw2, hc2, ?_, ?_⟩
    · rw [appendAll, h1]
      exact h2
    · rw [hl2, hl1]
      simp
      omega
    · rw [he2, he1]
      simp

theorem elems_length {a : Array} (hw : Wf a) : (elems a).length = a.length.toNat := by
  obtain ⟨h0, hlc, hdl⟩ := hw
  simp only [elems, List.length_take]
  omega

theorem get_eq_of_elems {a : Array} (hw : Wf a) {i : Nat} {v : Int}
    (h : (elems a)[i]? = some v) : get a (i : Int) = .ok v := by
  have hi : i < (elems a).length := by
    by_contra hcon
    rw [List.getElem?_eq_none (by omega)] at h
    exact Option.noConfusion h
  rw [elems_length hw] at hi
  have h1 : (i : Int) < a.length := by omega
  have h2 : (0 : Int) ≤ (i : Int) := by omega
  have hdata : a.data[i]? = some v := by
    rw [elems, List.getElem?_take] at h
    simpa [hi] using h
  rw [get, if_neg (by omega), if_neg (by omega), readMem, if_pos h2]
  simp [hdata]


theorem get_oor_iff (a : Array) (idx : Int) :
    get a idx = .error .OutOfRange ↔ idx < 0 ∨ a.length ≤ idx := by
  unfold get
  by_cases h1 : idx < a.length
  · by_cases h2 : 0 ≤ idx
    · rw [if_neg (not_not_intro h1), if_neg (not_not_intro h2)]
      cases hr : readMem a.data idx <;> simp <;> omega
    · rw [if_neg (not_not_intro h1), if_pos h2]
      simp
      omega
  · rw [if_pos h1]
    simp
    omega

theorem set_oor_iff (a : Array) (idx v : Int) :
    set a idx v = .error .OutOfRange ↔ idx < 0 ∨ a.length ≤ idx := by
  unfold set
  by_cases h1 : idx < a.length
  · by_cases h2 : 0 ≤ idx
    · rw [if_neg (not_not_intro h1), if_neg (not_not_intro h2)]
      cases hr : writeMem a.data idx v <;> simp <;> omega
    · rw [if_neg (not_not_intro h1), if_pos h2]
      simp
      omega
  · rw [if_pos h1]
    simp
    omega

theorem get_read_frame (d d' : List Int) (c c' l idx : Int)
    (h : ∀ i : Nat, (i : Int) < l → d[i]? = d'[i]?) :
    get ⟨d, c, l⟩ idx = get ⟨d', c', l⟩ idx := by
  unfold get
  by_cases h1 : idx < l
  · by_cases h2 : 0 ≤ idx
    · rw [if_neg (not_not_intro h1), if_neg (not_not_intro h1),
          if_neg (not_not_intro h2), if_neg (not_not_intro h2)]
      unfold readMem
      rw [if_pos h2, if_pos h2, h idx.toNat (by omega)]
    · rw [if_neg (not_not_intro h1), if_pos h2, if_neg (not_not_intro h1), if_pos h2]
  · rw [if_pos h1, if_pos h1]

theorem get_set_ne (a : Array) (idx v j : Int) (h0 : 0 ≤ idx) (hj : j ≠ idx) :
    get { a with data := a.data.set idx.toNat v } j = get a j := by
  unfold get
  by_cases h1 : j < a.length
  · by_cases h2 : 0 ≤ j
    · rw [if_neg (not_not_intro h1), if_neg (not_not_intro h1),
          if_neg (not_not_intro h2), if_neg (not_not_intro h2)]
      unfold readMem
      rw [if_pos h2, if_pos h2]
      dsimp only
      rw [List.getElem?_set_ne (by omega)]
    · rw [if_neg (not_not_intro h1), if_pos h2, if_neg (not_not_intro h1), if_pos h2]
  · rw [if_pos h1, if_pos h1]

/-- C5: `get` and `set` answer the range-error `OutOfRange` exactly when
the index is outside `[0, length)`; the bounds checks run before any
memory access (the characterisation holds for every struct value, even
one whose block is too short for its `length`, where an in-range access
would be undefined behaviour, never `OutOfRange`); and the value of
`get` depends only on the slots at indices below `length`, so `get`
never reads a slot at or beyond `length`. -/
theorem get_set_range_contract :
    (∀ (a : Array) (idx : Int),
      get a idx = .error .OutOfRange ↔ idx < 0 ∨ a.length ≤ idx) ∧
    (∀ (a : Array) (idx v : Int),
      set a idx v = .error .OutOfRange ↔ idx < 0 ∨ a.length ≤ idx) ∧
    (∀ (d d' : List Int) (c c' l idx : Int),
      (∀ i : Nat, (i : Int) < l → d[i]? = d'[i]?) →
      get ⟨d, c, l⟩ idx = get ⟨d', c', l⟩ idx) :=
  ⟨get_oor_iff, set_oor_iff, get_read_frame⟩

theorem get_set_range_contract_witness :
    get ⟨[3, 4], 2, 2⟩ 1 = get ⟨[3, 4, 7], 5, 2⟩ 1 :=
  get_set_range_contract.2.2 [3, 4] [3, 4, 7] 2 5 2 1 (fun i hi => by
    have h2 : i < 2 := by omega
    interval_cases i <;> rfl)

/-- C6 (amended): `popBack` performs no emptiness check and cannot fail:
it always decrements `length` by one and changes nothing else, so on an
array with `length == 0` it produces `length == -1` instead of an
`Underflow` failure. -/
theorem popBack_no_underflow_check (a : Array) :
    (popBack a).length = a.length - 1 ∧ (popBack a).capacity = a.capacity ∧
    (popBack a).data = a.data :=
  ⟨rfl, rfl, rfl⟩

theorem popBack_empty_decrements :
    (popBack (newArray 0)).length = -1 ∧ popBack (newArray 0) ≠ newArray 0 :=
  ⟨rfl, by decide⟩

/-- C7: on an array of positive length, `popBack` decrements `length`,
keeps `capacity` (it never shrinks or releases memory), and every
remaining element reads back unchanged. -/
theorem popBack_spec (a : Array) (h : 0 < a.length) :
    (popBack a).length = a.length - 1 ∧ (popBack a).capacity = a.capacity ∧
    ∀ i : Int, 0 ≤ i → i < a.length - 1 → get (popBack a) i = get a i := by
  refine ⟨rfl, rfl, fun i h0 hi => ?_⟩
  simp [get, popBack, h0, hi, show i < a.length from by omega]

theorem popBack_spec_witness :
    get (popBack ⟨[5, 6], 2, 2⟩) 0 = get ⟨[5, 6], 2, 2⟩ 0 :=
  (popBack_spec ⟨[5, 6], 2, 2⟩ (by decide)).2.2 0 (by decide) (by decide)

/-- C8: `popFront` is a behavioural no-op: length, capacity and every
element value are unchanged. -/
theorem popFront_noop (a : Array) (i : Int) :
    (popFront a).length = a.length ∧ (popFront a).capacity = a.capacity ∧
    get (popFront a) i = get a i :=
  ⟨rfl, rfl, rfl⟩

/-- C9: on a well-formed array and an index in `[0, length)`, `set`
succeeds and overwrites exactly the slot at that index; any successful
`set` leaves `length` and `capacity` unchanged and every other index
reads back as before. -/
theorem set_frame :
    (∀ (a : Array) (idx v : Int), Wf a → 0 ≤ idx → idx < a.length →
      set a idx v = .ok { a with data := a.data.set idx.toNat v }) ∧
    (∀ (a a' : Array) (idx v : Int), set a idx v = .ok a' →
      a'.length = a.length ∧ a'.capacity = a.capacity ∧
      ∀ j : Int, j ≠ idx → get a' j = get a j) := by
  constructor
  · intro a idx v hw h0 hl
    apply set_ok_iff.mpr
    obtain ⟨hw0, hw1, hw2⟩ := hw
    exact ⟨⟨h0, hl, by omega⟩, rfl⟩
  · intro a a' idx v h
    obtain ⟨⟨h0, hl, hm⟩, ha'⟩ := set_ok_iff.mp h
    subst ha'
    exact ⟨rfl, rfl, fun j hj => get_set_ne a idx v j h0 hj⟩

theorem set_frame_witness :
    get ⟨[9, 6], 2, 2⟩ 1 = get ⟨[5, 6], 2, 2⟩ 1 :=
  (set_frame.2 ⟨[5, 6], 2, 2⟩ ⟨[9, 6], 2, 2⟩ 0 9 rfl).2.2 1 (by decide)

/-- C10: a successful `set a i v` makes `get` at `i` return `v`, and
`get` at every other index return what it returned before the write. -/
theorem set_get_roundtrip (a a' : Array) (i v : Int) (h : set a i v = .ok a') :
    get a' i = .ok v ∧ ∀ j : Int, j ≠ i → get a' j = get a j := by
  obtain ⟨⟨h0, hl, hm⟩, ha'⟩ := set_ok_iff.mp h
  subst ha'
  constructor
  · unfold get
    rw [if_neg (not_not_intro hl), if_neg (not_not_intro h0)]
    unfold readMem
    rw [if_pos h0]
    dsimp only
    rw [List.getElem?_set_eq_of_lt v (by simpa using hm)]
  · exact fun j hj => get_set_ne a i v j h0 hj

theorem set_get_roundtrip_witness :
    get ⟨[7, 15], 2, 2⟩ 1 = .ok 15 :=
  (set_get_roundtrip ⟨[7, 8], 2, 2⟩ ⟨[7, 15], 2, 2⟩ 1 15 rfl).1


/-- C1 (amended): every reachable state satisfies `length <= capacity`
(and `capacity >= 0`); the lower bound `0 <= length` of the claimed
invariant is violated, because `popBack` decrements `length` with no
check (see the counterexample reaching `length == -1`). -/
theorem reachable_length_le_capacity (a : Array) (h : Reachable a) :
    a.length ≤ a.capacity ∧ 0 ≤ a.capacity :=
  ⟨(reachable_inv h).2.2, (reachable_inv h).1⟩

theorem reachable_length_le_capacity_witness :
    (newArray 2).length ≤ (newArray 2).capacity ∧ 0 ≤ (newArray 2).capacity :=
  reachable_length_le_capacity (newArray 2) (Reachable.create 2 (by decide))

theorem reachable_negative_length :
    Reachable (popBack (newArray 0)) ∧ (popBack (newArray 0)).length < 0 :=
  ⟨Reachable.popBack (newArray 0) (Reachable.create 0 (by decide)), by decide⟩

/-- C2 (amended): when `append` finds `length == capacity` it allocates
a block of capacity `capacity * 2` with no `max(1, ...)` guard, so a
successful append from a full array exactly doubles the capacity; from
`create(0)` growth is impossible: the doubled capacity is still `0` and
the write of the new element is out of bounds (undefined behaviour), so
`create(0)` followed by `append(x)` does not yield a state with
`capacity >= 1`. -/
theorem append_doubles_without_guard :
    (∀ v : Int, append (newArray 0) v = .error .UB) ∧
    (∀ (a a' : Array) (v : Int), Wf a → a.length = a.capacity →
      append a v = .ok a' → a'.capacity = a.capacity * 2) := by
  constructor
  · intro v
    rfl
  · intro a a' v hw hfull h
    obtain ⟨h0, hlc, hdl⟩ := hw
    rw [append_of_full v hfull h0 (by omega)] at h
    obtain ⟨hr, ha'⟩ := pushRaw_ok.mp h
    subst ha'
    rfl

theorem append_doubles_without_guard_witness :
    (⟨[7, 9], 2, 2⟩ : Array).capacity = (⟨[7], 1, 1⟩ : Array).capacity * 2 :=
  append_doubles_without_guard.2 ⟨[7], 1, 1⟩ ⟨[7, 9], 2, 2⟩ 9
    (by exact ⟨by decide, by decide, by decide⟩) (by decide) rfl

theorem append_from_zero_capacity_ub :
    append (newArray 0) 42 = .error .UB ∧ (grow (newArray 0)).capacity = 0 :=
  ⟨rfl, rfl⟩

/-- C3 (amended): starting from `create(c)` with `c >= 1` and length 0,
`n` sequential appends of `v_0 .. v_(n-1)` all succeed, `length == n`,
and `get(i)` returns `v_i` for every `i < n`; from initial capacity `0`
this fails, since the first append hits undefined behaviour (see the
counterexample). -/
theorem appendAll_correct (c : Int) (hc : 1 ≤ c) (vs : List Int) :
    ∃ a, appendAll (newArray c) vs = .ok a ∧ a.length = (vs.length : Int) ∧
      ∀ (i : Nat) (v : Int), vs[i]? = some v → get a (i : Int) = .ok v := by
  obtain ⟨a, h1, hw, hc1, hl, he⟩ :=
    appendAll_spec vs (wf_newArray (show (0 : Int) ≤ c by omega)) (by simpa [newArray] using hc)
  rw [elems_newArray] at he
  simp only [List.nil_append] at he
  refine ⟨a, h1, ?_, ?_⟩
  · rw [hl]
    simp [newArray]
  · intro i v hiv
    apply get_eq_of_elems hw
    rw [he]
    exact hiv

theorem appendAll_correct_witness :
    (appendAll (newArray 2) [10, 20, 30]).map (fun a => a.length) = .ok 3 := by
  obtain ⟨a, h1, h2, h3⟩ := appendAll_correct 2 (by decide) [10, 20, 30]
  rw [h1]
  simp only [Except.map, h2]
  rfl

theorem appendAll_from_zero_capacity_ub :
    appendAll (newArray 0) [42] = .error .UB :=
  rfl

/-- C4: starting from `create(2)`, the capacity along the first five
appends is `2, 2, 4, 4, 8`: it doubles exactly on the 3rd and 5th
append, the two appends that find `length == capacity`. -/
theorem growth_doubling (v1 v2 v3 v4 v5 : Int) :
    (appendAll (newArray 2) [v1]).map (fun a => a.capacity) = .ok 2 ∧
    (appendAll (newArray 2) [v1, v2]).map (fun a => a.capacity) = .ok 2 ∧
    (appendAll (newArray 2) [v1, v2, v3]).map (fun a => a.capacity) = .ok 4 ∧
    (appendAll (newArray 2) [v1, v2, v3, v4]).map (fun a => a.capacity) = .ok 4 ∧
    (appendAll (newArray 2) [v1, v2, v3, v4, v5]).map (fun a => a.capacity) = .ok 8 :=
  ⟨rfl, rfl, rfl, rfl, rfl⟩

end AppendableArrays
